import Mathlib

/-!
Verification of the folioli projection engine (`src/app/page.js` and the
action-node components).  The JavaScript source is shallowly embedded:
numbers become `ℚ`, nullable prices become `Option ℚ`, JS objects keyed by
node id become association lists, and the in-place array mutations of the
engine become pure list transformations returning the new list.
-/

namespace Folioli

/-- A holding inside a ledger, as produced by `page.js` (fields `ticker`,
`amount`, `price` (nullable), `type`, `value`). -/
structure Position where
  ticker : String
  amount : ℚ
  price : Option ℚ
  assetType : String
  value : ℚ
  deriving DecidableEq, Inhabited

/-- The engine's epsilon threshold `0.000001` used in the removal checks. -/
def eps : ℚ := 1 / 1000000

/-- JS `h.price || 0`: a `null` (and a zero) price reads as `0`. -/
def Position.priceOrZero (h : Position) : ℚ :=
  (h.price).getD 0

/-- One directed edge of the react-flow graph (`{source, target}`). -/
structure Edge where
  source : String
  target : String
  deriving DecidableEq, Inhabited

/-- The record stored in the `rotations` map by `RotateAssetNode`'s
`onRotationChange` callback (lines 89-101 of `RotateAssetNode.js`). -/
structure Rotation where
  fromAsset : String
  sellAmount : ℚ
  sellValue : ℚ
  toAsset : String
  toPrice : ℚ
  toType : String
  buyAmount : ℚ
  deriving DecidableEq, Inhabited

/-- The record stored in the `sells` map by `SellAssetNode`. -/
structure SellRec where
  fromAsset : String
  sellAmount : ℚ
  sellValue : ℚ
  deriving DecidableEq, Inhabited

/-- The record stored in the `buys` map by `BuyAssetNode`. -/
structure BuyRec where
  cashAmount : ℚ
  toAsset : String
  toPrice : ℚ
  toType : String
  buyAmount : ℚ
  deriving DecidableEq, Inhabited

/-- The record stored in the `priceTargets` map by `PriceTargetNode`
(lines 103-108 of `PriceTargetNode.js`): `{asset, targetPrice}` (the also
stored `currentPrice` is never read by the engine and is omitted). -/
structure PriceTargetRec where
  asset : String
  targetPrice : ℚ
  deriving DecidableEq, Inhabited

/-- The React state of `Home` in `page.js` that the projection engine closes
over.  `nodeXY` and the counters model the pieces of state (drag positions,
id counters) that the engine does not read. -/
structure AppState where
  edges : List Edge
  portfolioHoldings : List (String × List Position)
  rotations : List (String × Rotation)
  sells : List (String × SellRec)
  buys : List (String × BuyRec)
  priceTargets : List (String × PriceTargetRec)
  nodeXY : List (String × ℚ × ℚ)
  rotationCount : Nat
  sellCount : Nat
  buyCount : Nat
  priceTargetCount : Nat
  portfolioCount : Nat
  deriving DecidableEq, Inhabited

/-- JS `portfolioHoldings[portfolioId] || []`. -/
def holdingsOf (st : AppState) (portfolioId : String) : List Position :=
  (st.portfolioHoldings.lookup portfolioId).getD []

/-- The debit block shared by the `rotate-` and `sell-` branches of
`computeHoldingsUpTo` (page.js 553-559, 583-590) and
`calculateProjectedHoldings` (page.js 1298-1305, 1328-1335):
`findIndex` by ticker; if absent nothing happens; otherwise subtract
`sellAmount`, recompute `value` with `(price || 0)`, and `splice` the
position out when the new amount is `<= 0.000001`.
The `findIndex` / mutate / `splice` sequence is rendered as one structural
pass: positions before the first match are kept, the first match is updated
in place or dropped, everything after it is untouched. -/
def debit (led : List Position) (fromAsset : String) (sellAmount : ℚ) :
    List Position :=
  match led with
  | [] => []
  | h :: rest =>
    if h.ticker == fromAsset then
      let upd : Position :=
        { h with amount := h.amount - sellAmount,
                 value := (h.amount - sellAmount) * h.priceOrZero }
      if upd.amount ≤ eps then rest else upd :: rest
    else h :: debit rest fromAsset sellAmount

/-- The credit block shared by the `rotate-` and `buy-` branches of
`computeHoldingsUpTo` (page.js 562-574) and `calculateProjectedHoldings`
(page.js 1307-1319): `findIndex` by ticker; if present add `buyAmount` and
recompute `value` with the position's own `(price || 0)`; otherwise push a
new position priced at `toPrice`. -/
def credit (led : List Position) (toAsset : String) (buyAmount toPrice : ℚ)
    (toType : String) : List Position :=
  match led with
  | [] => [{ ticker := toAsset, amount := buyAmount, price := some toPrice,
             assetType := toType, value := buyAmount * toPrice }]
  | h :: rest =>
    if h.ticker == toAsset then
      { h with amount := h.amount + buyAmount,
               value := (h.amount + buyAmount) * h.priceOrZero } :: rest
    else h :: credit rest toAsset buyAmount toPrice toType

/-- The cash reconciliation block of `computeHoldingsUpTo` (page.js 620-638)
and `calculateProjectedHoldings` (page.js 1365-1383): when `totalCash` is
nonzero, add it to the `USD` position (creating it at price 1 if missing) and
`splice` that position out when `|new amount| <= 0.000001` (the only
absolute-value removal check in the engine; the position's new `value` is its
new amount, the USD price staying 1). -/
def reconcileCashGo (led : List Position) (totalCash : ℚ) : List Position :=
  match led with
  | [] => [{ ticker := "USD", amount := totalCash, price := some 1,
             assetType := "cash", value := totalCash }]
  | h :: rest =>
    if h.ticker == "USD" then
      let upd : Position :=
        { h with amount := h.amount + totalCash,
                 value := h.amount + totalCash }
      if |upd.amount| ≤ eps then rest else upd :: rest
    else h :: reconcileCashGo rest totalCash

/-- The `if (totalCash !== 0)` guard around the reconciliation block
(page.js 621 / 1366). -/
def reconcileCash (led : List Position) (totalCash : ℚ) : List Position :=
  if totalCash = 0 then led else reconcileCashGo led totalCash

/-- Stable insertion used to model the final
`projected.sort((a, b) => (b.value || 0) - (a.value || 0))` of
`calculateProjectedHoldings` (page.js 1385): `x` moves left past exactly the
elements of strictly smaller key, so equal keys keep their prior relative
order, as the (stable) JS sort does. -/
def insertByKeyDesc {α : Type} (key : α → ℚ) (x : α) : List α → List α
  | [] => [x]
  | y :: ys => if key y < key x then x :: y :: ys
               else y :: insertByKeyDesc key x ys

/-- Stable sort, descending by `key`. -/
def sortByKeyDesc {α : Type} (key : α → ℚ) (l : List α) : List α :=
  l.foldl (fun acc x => insertByKeyDesc key x acc) []

/-- JS `String.prototype.startsWith`, written on the underlying character
lists so that it evaluates inside the kernel. -/
def strStartsWith (s p : String) : Bool :=
  p.data.isPrefixOf s.data

/-- Function `isActionNode` (page.js 411-416): node kind is derived from the id text. -/
def isActionNode (nodeId : String) : Bool :=
  strStartsWith nodeId "rotate-" || strStartsWith nodeId "sell-" ||
  strStartsWith nodeId "buy-" || strStartsWith nodeId "priceTarget-"

/-- The action-node targets appearing in the edge list; the chain walk can
only ever visit these, which bounds its recursion. -/
def actionTargets (edges : List Edge) : List String :=
  (edges.filter (fun e => isActionNode e.target)).map Edge.target

/-- The number of action-node targets not yet visited: the quantity that
shrinks at every step of the chain walk, bounding the `while (true)` loop of
page.js 452-460. -/
def unvisitedCount (edges : List Edge) (visited : List String) : Nat :=
  ((actionTargets edges).filter (fun t => t ∉ visited)).length

/-- The chain-following loop of `getOrderedChainNodes` (page.js 452-460):
repeatedly `find` the first edge out of `currentId` whose target is an action
node; stop when there is none or when its target was already visited in this
walk, else push the target and continue from it.  The `fuel` argument is
only the termination measure; `chainWalkF_fuel_irrelevant` below shows that
any fuel above `unvisitedCount` computes the same walk, so the function
agrees with the unbounded JS loop. -/
def chainWalkF (edges : List Edge) :
    Nat → String → List String → List String
  | 0, _, _ => []
  | fuel + 1, currentId, visited =>
    match edges.find? (fun e => e.source == currentId && isActionNode e.target) with
    | none => []
    | some nextEdge =>
      if nextEdge.target ∈ visited then []
      else nextEdge.target ::
        chainWalkF edges fuel nextEdge.target (nextEdge.target :: visited)

/-- The chain walk, with the fuel fixed at one more than the unvisited
count — enough by `chainWalkF_fuel_irrelevant`. -/
def chainWalk (edges : List Edge) (currentId : String) (visited : List String) :
    List String :=
  chainWalkF edges (unvisitedCount edges visited + 1) currentId visited

/-- Function `getOrderedChainNodes` (page.js 438-466): for every edge from the
portfolio to an action node, the chain starts at that target and follows
`chainWalk` with the start target already marked visited. -/
def getOrderedChainNodes (edges : List Edge) (portfolioId : String) :
    List (List String) :=
  (edges.filter (fun e => e.source == portfolioId && isActionNode e.target)).map
    (fun startEdge =>
      startEdge.target :: chainWalk edges startEdge.target [startEdge.target])

/-- The backward walk of `getSourcePortfolioForAction` (page.js 419-435):
while the current id is truthy and unvisited, find the edge into it; stop
with `null` when there is none, return the source when it is a portfolio id,
else continue from the source. -/
def sourcePortfolioWalkF (edges : List Edge) :
    Nat → String → List String → Option String
  | 0, _, _ => none
  | fuel + 1, currentId, visited =>
    if currentId = "" ∨ currentId ∈ visited then none
    else
      match edges.find? (fun e => e.target == currentId) with
      | none => none
      | some edge =>
        if strStartsWith edge.source "portfolio-" then some edge.source
        else sourcePortfolioWalkF edges fuel edge.source (currentId :: visited)

/-- The backward walk with the fuel fixed at one more than the number of
unvisited edge targets (every step visits a fresh edge target, so this never
runs out before the JS loop would stop). -/
def sourcePortfolioWalk (edges : List Edge) (currentId : String)
    (visited : List String) : Option String :=
  sourcePortfolioWalkF edges
    (((edges.map Edge.target).filter (fun t => t ∉ visited)).length + 1)
    currentId visited

/-- Function `getSourcePortfolioForAction` (page.js 419): start the backward walk with
an empty visited set. -/
def getSourcePortfolioForAction (edges : List Edge) (actionNodeId : String) :
    Option String :=
  sourcePortfolioWalk edges actionNodeId []

/-- JS truthiness of a stored price target: `pt.asset` a non-empty string and
`pt.targetPrice` a nonzero number (page.js 494, 534, 1268). -/
def validPT (pt : PriceTargetRec) : Bool :=
  pt.asset != "" && pt.targetPrice != 0

/-- One step of building an override map (`priceOverrides[pt.asset] =
pt.targetPrice` under the validity guard, page.js 490-498 and 1265-1272). -/
def addOverride (priceTargets : List (String × PriceTargetRec))
    (m : String → Option ℚ) (nodeId : String) : String → Option ℚ :=
  if strStartsWith nodeId "priceTarget-" then
    match priceTargets.lookup nodeId with
    | some pt =>
      if validPT pt then
        fun k => if k = pt.asset then some pt.targetPrice else m k
      else m
    | none => m
  else m

/-- Function `getPriceOverridesUpTo` (page.js 469-501): locate the chain containing
`stopBeforeNodeId`; when it is found at a positive index, fold the price
targets of the part of the chain strictly before it; otherwise the map is
empty. -/
def getPriceOverridesUpTo (edges : List Edge)
    (priceTargets : List (String × PriceTargetRec))
    (portfolioId stopBeforeNodeId : String) : String → Option ℚ :=
  let chains := getOrderedChainNodes edges portfolioId
  match chains.find? (fun chain => chain.contains stopBeforeNodeId) with
  | none => fun _ => none
  | some targetChain =>
    let stopIndex := targetChain.findIdx (fun n => n == stopBeforeNodeId)
    if stopIndex = 0 then fun _ => none
    else (targetChain.take stopIndex).foldl (addOverride priceTargets) (fun _ => none)

/-- The price-target first pass of `computeHoldingsUpTo` (page.js 535-539):
overwrite the matching position's price and recompute `value` as
`targetPrice * amount`; no-op when the ticker is absent. -/
def applyPriceTargetToLedger (led : List Position) (pt : PriceTargetRec) :
    List Position :=
  match led with
  | [] => []
  | h :: rest =>
    if h.ticker == pt.asset then
      { h with price := some pt.targetPrice,
               value := pt.targetPrice * h.amount } :: rest
    else h :: applyPriceTargetToLedger rest pt

/-- One node of the first pass of `computeHoldingsUpTo` (page.js 530-542). -/
def ptStep (priceTargets : List (String × PriceTargetRec))
    (led : List Position) (nodeId : String) : List Position :=
  if strStartsWith nodeId "priceTarget-" then
    match priceTargets.lookup nodeId with
    | some pt => if validPT pt then applyPriceTargetToLedger led pt else led
    | none => led
  else led

/-- One node of the rotate/sell/buy pass, shared verbatim between
`computeHoldingsUpTo` (page.js 545-618) and `calculateProjectedHoldings`
(page.js 1290-1363): three successive id-test blocks threading the ledger and
the cash accumulator. -/
def tradeStep (st : AppState) (acc : List Position × ℚ) (nodeId : String) :
    List Position × ℚ :=
  let acc1 :=
    if strStartsWith nodeId "rotate-" then
      match st.rotations.lookup nodeId with
      | some r =>
        (credit (debit acc.1 r.fromAsset r.sellAmount) r.toAsset r.buyAmount
          r.toPrice r.toType, acc.2)
      | none => acc
    else acc
  let acc2 :=
    if strStartsWith nodeId "sell-" then
      match st.sells.lookup nodeId with
      | some s => (debit acc1.1 s.fromAsset s.sellAmount, acc1.2 + s.sellValue)
      | none => acc1
    else acc1
  if strStartsWith nodeId "buy-" then
    match st.buys.lookup nodeId with
    | some b =>
      (credit acc2.1 b.toAsset b.buyAmount b.toPrice b.toType, acc2.2 - b.cashAmount)
    | none => acc2
  else acc2

/-- Function `computeHoldingsUpTo` (page.js 504-641): holdings after the nodes of the
chain strictly before `stopBeforeNodeId` — base holdings (cloned) when the
node is first in its chain or not found; otherwise the price-target pass,
then the rotate/sell/buy pass, then cash reconciliation.  Not sorted. -/
def computeHoldingsUpTo (st : AppState) (portfolioId stopBeforeNodeId : String) :
    List Position :=
  let baseHoldings := holdingsOf st portfolioId
  let chains := getOrderedChainNodes st.edges portfolioId
  match chains.find? (fun chain => chain.contains stopBeforeNodeId) with
  | none => baseHoldings
  | some targetChain =>
    let stopIndex := targetChain.findIdx (fun n => n == stopBeforeNodeId)
    if stopIndex = 0 then baseHoldings
    else
      let upToNodes := targetChain.take stopIndex
      let projected := upToNodes.foldl (ptStep st.priceTargets) baseHoldings
      let result := upToNodes.foldl (tradeStep st) (projected, 0)
      reconcileCash result.1 result.2

/-- The unscoped override map of the terminal projection (page.js 1260-1272):
every price target of every chain of the portfolio contributes, wherever it
sits in its chain. -/
def terminalPriceOverrides (edges : List Edge)
    (priceTargets : List (String × PriceTargetRec)) (portfolioId : String) :
    String → Option ℚ :=
  ((getOrderedChainNodes edges portfolioId).flatten).foldl
    (addOverride priceTargets) (fun _ => none)

/-- The clone-and-override pass of `calculateProjectedHoldings`
(page.js 1274-1285): every position whose ticker has an override gets the
override price and the recomputed value; the rest are copied unchanged. -/
def overrideClone (overrides : String → Option ℚ) (led : List Position) :
    List Position :=
  led.map (fun h =>
    match overrides h.ticker with
    | some op => { h with price := some op, value := op * h.amount }
    | none => h)

/-- Function `calculateProjectedHoldings` (page.js 1256-1386): build the unscoped
override map, apply it to the cloned base holdings, fold every action of
every chain in resolver order, reconcile the cash accumulator, and sort by
value descending. -/
def calculateProjectedHoldings (st : AppState) (portfolioId : String) :
    List Position :=
  let holdings := holdingsOf st portfolioId
  let chains := getOrderedChainNodes st.edges portfolioId
  let allActionNodes := chains.flatten
  let priceOverrides := terminalPriceOverrides st.edges st.priceTargets portfolioId
  let projected := overrideClone priceOverrides holdings
  let result := allActionNodes.foldl (tradeStep st) (projected, 0)
  sortByKeyDesc (fun h => h.value) (reconcileCash result.1 result.2)

/-- The `sellValue` of `RotateAssetNode` (RotateAssetNode.js 33-36): when the
selected holding exists and a nonzero sell amount is typed,
`sellAmount * (selectedHolding.price || 0)`, else 0. -/
def rotateSellValue (holdings : List Position) (fromAsset : String)
    (sellAmount : ℚ) : ℚ :=
  match holdings.find? (fun h => h.ticker == fromAsset) with
  | some h => if sellAmount ≠ 0 then sellAmount * h.priceOrZero else 0
  | none => 0

/-- The `buyAmount` of `RotateAssetNode` (RotateAssetNode.js 38):
`toPrice && sellValue ? sellValue / toPrice : 0`. -/
def rotateBuyAmount : Option ℚ → ℚ → ℚ
  | some p, sellValue => if p ≠ 0 ∧ sellValue ≠ 0 then sellValue / p else 0
  | none, _ => 0

/-- The rotation record committed by `RotateAssetNode`'s change callback
(RotateAssetNode.js 85-101): built only when `fromAsset`, a positive parsed
`sellAmount`, a non-empty `toAsset` and a truthy `toPrice` are all present
(`toAsset` is already uppercase in the component state, so the
`toUpperCase().trim()` normalization is the identity here). -/
def mkRotationRecord (holdings : List Position) (fromAsset : String)
    (sellAmount : ℚ) (toAsset : String) (toType : String) :
    Option ℚ → Option Rotation
  | some p =>
    if fromAsset ≠ "" ∧ 0 < sellAmount ∧ toAsset ≠ "" ∧ p ≠ 0 then
      some { fromAsset := fromAsset, sellAmount := sellAmount,
             sellValue := rotateSellValue holdings fromAsset sellAmount,
             toAsset := toAsset, toPrice := p, toType := toType,
             buyAmount := rotateBuyAmount (some p)
               (rotateSellValue holdings fromAsset sellAmount) }
    else none
  | none => none

/-- The effective `toPrice` of `BuyAssetNode` (BuyAssetNode.js 67-74, the
same pattern in `AllInNode`): an override from a preceding price target, when
present, replaces the fetched market price. -/
def buyEffectiveToPrice (priceOverrides : String → Option ℚ) (assetKey : String)
    (fetched : Option ℚ) : Option ℚ :=
  match priceOverrides assetKey with
  | some v => some v
  | none => fetched

/-- The effective `toPrice` of `RotateAssetNode`: its price effect
(RotateAssetNode.js 46-67) has no `priceOverrides` branch at all — the
component never reads the override map page.js 1414 passes it — so the
rotate node's `toPrice` is always just the fetched market price. -/
def rotateEffectiveToPrice (_priceOverrides : String → Option ℚ)
    (_assetKey : String) (fetched : Option ℚ) : Option ℚ :=
  fetched

/-- The override that node `nodeId` contributes for ticker `t`: its target
price when it is a price-target node with a valid record for `t`. -/
def ptOverrideAt (priceTargets : List (String × PriceTargetRec)) (t : String)
    (nodeId : String) : Option ℚ :=
  if strStartsWith nodeId "priceTarget-" then
    match priceTargets.lookup nodeId with
    | some pt => if validPT pt ∧ pt.asset = t then some pt.targetPrice else none
    | none => none
  else none

/-- Specification-side reading of an override map: the contribution of the
LAST node of `nodes` that contributes an override for `t` (later price
targets for the same ticker win). -/
def lastPTOverride (priceTargets : List (String × PriceTargetRec))
    (nodes : List String) (t : String) : Option ℚ :=
  match nodes.reverse.find? (fun n => (ptOverrideAt priceTargets t n).isSome) with
  | some n => ptOverrideAt priceTargets t n
  | none => none

/-!
### Object-level (heap) rendering of the engine

In the JS source a ledger is an array of position *objects*.  Both
`computeHoldingsUpTo` (page.js 522, 526) and `calculateProjectedHoldings`
(page.js 1275-1285) first build `projected` as an array of fresh objects
(`holdings.map(h => ({...h}))`, with the override variant in the terminal
projection) and then mutate only those fresh objects or objects they push.
To state the frame property — the base portfolio's position objects are never
written — the same engine code is transcribed once more at the object level:
a heap (list of positions indexed by address) together with address lists
standing for the JS arrays of references.  Each `H` function is the
address-level reading of the like-named pure function.
-/

/-- Dereference an address (out-of-range reads the default position; the
engine never produces one). -/
def heapAt (heap : List Position) (a : Nat) : Position :=
  (heap[a]?).getD default

/-- The field update a debit performs on the found object. -/
def debitUpd (h : Position) (amt : ℚ) : Position :=
  { h with amount := h.amount - amt, value := (h.amount - amt) * h.priceOrZero }

/-- The field update a credit performs on the found object. -/
def creditUpd (h : Position) (b : ℚ) : Position :=
  { h with amount := h.amount + b, value := (h.amount + b) * h.priceOrZero }

/-- The field update the cash reconciliation performs on the USD object. -/
def cashUpd (h : Position) (c : ℚ) : Position :=
  { h with amount := h.amount + c, value := h.amount + c }

/-- The field update a price target performs on the found object. -/
def ptUpd (h : Position) (pt : PriceTargetRec) : Position :=
  { h with price := some pt.targetPrice, value := pt.targetPrice * h.amount }

/-- The fresh object the clone pass allocates for a base object: the
override price when one matches, a plain copy otherwise (page.js 1275-1285;
with no overrides this is `({...h})`, page.js 522/526). -/
def clonePos (overrides : String → Option ℚ) (h : Position) : Position :=
  match overrides h.ticker with
  | some op => { h with price := some op, value := op * h.amount }
  | none => h

/-- The frame relation of the engine: after a computation the heap is at
least `n` cells long, every address the computation hands back lies at or
beyond `n`, and every cell below `n` still holds exactly what `heap₀` held —
the engine only ever writes to its fresh clones. -/
abbrev HeapExtends (n : Nat) (heap₀ heap : List Position)
    (addrs : List Nat) : Prop :=
  n ≤ heap.length ∧ (∀ a ∈ addrs, n ≤ a) ∧ ∀ i, i < n → heap[i]? = heap₀[i]?

/-- Operation `debit` on the heap: find the first address whose position matches,
write the updated object (always), and drop the address from the array when
the new amount is at most epsilon. -/
def debitH (heap : List Position) (addrs : List Nat) (fromAsset : String)
    (sellAmount : ℚ) : List Position × List Nat :=
  match addrs with
  | [] => (heap, [])
  | a :: rest =>
    if (heapAt heap a).ticker == fromAsset then
      if (debitUpd (heapAt heap a) sellAmount).amount ≤ eps then
        (heap.set a (debitUpd (heapAt heap a) sellAmount), rest)
      else (heap.set a (debitUpd (heapAt heap a) sellAmount), a :: rest)
    else
      ((debitH heap rest fromAsset sellAmount).1,
       a :: (debitH heap rest fromAsset sellAmount).2)

/-- Operation `credit` on the heap: update the matching object in place, or allocate a
fresh object at the end of the heap and push its address. -/
def creditH (heap : List Position) (addrs : List Nat) (toAsset : String)
    (buyAmount toPrice : ℚ) (toType : String) : List Position × List Nat :=
  match addrs with
  | [] =>
    (heap ++ [{ ticker := toAsset, amount := buyAmount, price := some toPrice,
                assetType := toType, value := buyAmount * toPrice }],
     [heap.length])
  | a :: rest =>
    if (heapAt heap a).ticker == toAsset then
      (heap.set a (creditUpd (heapAt heap a) buyAmount), a :: rest)
    else
      ((creditH heap rest toAsset buyAmount toPrice toType).1,
       a :: (creditH heap rest toAsset buyAmount toPrice toType).2)

/-- The price-target first pass on the heap. -/
def applyPriceTargetToLedgerH (heap : List Position) (addrs : List Nat)
    (pt : PriceTargetRec) : List Position × List Nat :=
  match addrs with
  | [] => (heap, [])
  | a :: rest =>
    if (heapAt heap a).ticker == pt.asset then
      (heap.set a (ptUpd (heapAt heap a) pt), a :: rest)
    else
      ((applyPriceTargetToLedgerH heap rest pt).1,
       a :: (applyPriceTargetToLedgerH heap rest pt).2)

/-- Cash reconciliation on the heap (nonzero-cash branch). -/
def reconcileCashGoH (heap : List Position) (addrs : List Nat)
    (totalCash : ℚ) : List Position × List Nat :=
  match addrs with
  | [] =>
    (heap ++ [{ ticker := "USD", amount := totalCash, price := some 1,
                assetType := "cash", value := totalCash }],
     [heap.length])
  | a :: rest =>
    if (heapAt heap a).ticker == "USD" then
      if |(cashUpd (heapAt heap a) totalCash).amount| ≤ eps then
        (heap.set a (cashUpd (heapAt heap a) totalCash), rest)
      else (heap.set a (cashUpd (heapAt heap a) totalCash), a :: rest)
    else
      ((reconcileCashGoH heap rest totalCash).1,
       a :: (reconcileCashGoH heap rest totalCash).2)

/-- Cash reconciliation on the heap. -/
def reconcileCashH (heap : List Position) (addrs : List Nat) (totalCash : ℚ) :
    List Position × List Nat :=
  if totalCash = 0 then (heap, addrs) else reconcileCashGoH heap addrs totalCash

/-- The clone pass: for every base address, allocate a fresh copy (with the
override applied when one matches) and return the fresh addresses.  With
`overrides = fun _ => none` this is the plain `holdings.map(h => ({...h}))`
of `computeHoldingsUpTo`. -/
def cloneH (heap : List Position) (overrides : String → Option ℚ) :
    List Nat → List Position × List Nat
  | [] => (heap, [])
  | a :: rest =>
    ((cloneH (heap ++ [clonePos overrides (heapAt heap a)]) overrides rest).1,
     heap.length ::
       (cloneH (heap ++ [clonePos overrides (heapAt heap a)]) overrides rest).2)

/-- One node of the price-target first pass, heap level. -/
def ptStepH (priceTargets : List (String × PriceTargetRec))
    (acc : List Position × List Nat) (nodeId : String) :
    List Position × List Nat :=
  if strStartsWith nodeId "priceTarget-" then
    match priceTargets.lookup nodeId with
    | some pt => if validPT pt then applyPriceTargetToLedgerH acc.1 acc.2 pt else acc
    | none => acc
  else acc

/-- The rotate block of the trade pass, heap level. -/
def tradeRotH (st : AppState) (acc : List Position × List Nat × ℚ)
    (nodeId : String) : List Position × List Nat × ℚ :=
  if strStartsWith nodeId "rotate-" then
    match st.rotations.lookup nodeId with
    | some r =>
      ((creditH (debitH acc.1 acc.2.1 r.fromAsset r.sellAmount).1
          (debitH acc.1 acc.2.1 r.fromAsset r.sellAmount).2
          r.toAsset r.buyAmount r.toPrice r.toType).1,
       (creditH (debitH acc.1 acc.2.1 r.fromAsset r.sellAmount).1
          (debitH acc.1 acc.2.1 r.fromAsset r.sellAmount).2
          r.toAsset r.buyAmount r.toPrice r.toType).2,
       acc.2.2)
    | none => acc
  else acc

/-- The sell block of the trade pass, heap level. -/
def tradeSellH (st : AppState) (acc : List Position × List Nat × ℚ)
    (nodeId : String) : List Position × List Nat × ℚ :=
  if strStartsWith nodeId "sell-" then
    match st.sells.lookup nodeId with
    | some s =>
      ((debitH acc.1 acc.2.1 s.fromAsset s.sellAmount).1,
       (debitH acc.1 acc.2.1 s.fromAsset s.sellAmount).2,
       acc.2.2 + s.sellValue)
    | none => acc
  else acc

/-- The buy block of the trade pass, heap level. -/
def tradeBuyH (st : AppState) (acc : List Position × List Nat × ℚ)
    (nodeId : String) : List Position × List Nat × ℚ :=
  if strStartsWith nodeId "buy-" then
    match st.buys.lookup nodeId with
    | some b =>
      ((creditH acc.1 acc.2.1 b.toAsset b.buyAmount b.toPrice b.toType).1,
       (creditH acc.1 acc.2.1 b.toAsset b.buyAmount b.toPrice b.toType).2,
       acc.2.2 - b.cashAmount)
    | none => acc
  else acc

/-- One node of the rotate/sell/buy pass, heap level: the three successive
id-test blocks. -/
def tradeStepH (st : AppState) (acc : List Position × List Nat × ℚ)
    (nodeId : String) : List Position × List Nat × ℚ :=
  tradeBuyH st (tradeSellH st (tradeRotH st acc nodeId) nodeId) nodeId

/-- Function `computeHoldingsUpTo` at the object level: `baseAddrs` are the addresses
of the base portfolio's position objects; the result is the final heap and
the addresses of the fresh snapshot array. -/
def computeHoldingsUpToH (st : AppState) (heap : List Position)
    (baseAddrs : List Nat) (portfolioId stopBeforeNodeId : String) :
    List Position × List Nat :=
  let chains := getOrderedChainNodes st.edges portfolioId
  match chains.find? (fun chain => chain.contains stopBeforeNodeId) with
  | none => cloneH heap (fun _ => none) baseAddrs
  | some targetChain =>
    let stopIndex := targetChain.findIdx (fun n => n == stopBeforeNodeId)
    if stopIndex = 0 then cloneH heap (fun _ => none) baseAddrs
    else
      let upToNodes := targetChain.take stopIndex
      let c := cloneH heap (fun _ => none) baseAddrs
      let p := upToNodes.foldl (ptStepH st.priceTargets) c
      let r := upToNodes.foldl (tradeStepH st) (p.1, p.2, 0)
      reconcileCashH r.1 r.2.1 r.2.2

/-- Function `calculateProjectedHoldings` at the object level; the final sort permutes
the snapshot's address array in place, dereferencing for the keys. -/
def calculateProjectedHoldingsH (st : AppState) (heap : List Position)
    (baseAddrs : List Nat) (portfolioId : String) :
    List Position × List Nat :=
  let chains := getOrderedChainNodes st.edges portfolioId
  let allActionNodes := chains.flatten
  let priceOverrides := terminalPriceOverrides st.edges st.priceTargets portfolioId
  let c := cloneH heap priceOverrides baseAddrs
  let r := allActionNodes.foldl (tradeStepH st) (c.1, c.2, 0)
  let rc := reconcileCashH r.1 r.2.1 r.2.2
  (rc.1, sortByKeyDesc (fun a => (heapAt rc.1 a).value) rc.2)

/-!
### Concrete instances used in the scenario proofs
-/

/-- The base holding of the simple-rotate scenario. -/
def posBTC : Position :=
  { ticker := "BTC", amount := 1, price := some 50000, assetType := "crypto",
    value := 50000 }

/-- The rotation record the rotate component commits for the simple-rotate
scenario (`buyAmount = 0.5 * 50000 / 2500 = 10`). -/
def rotC3 : Rotation :=
  { fromAsset := "BTC", sellAmount := 1 / 2, sellValue := 25000,
    toAsset := "ETH", toPrice := 2500, toType := "crypto", buyAmount := 10 }

/-- App state of the simple-rotate scenario: one portfolio holding one BTC,
one rotate node, the terminal projection node. -/
def stC3 : AppState :=
  { edges := [⟨"portfolio-1", "rotate-1"⟩, ⟨"rotate-1", "projected-1"⟩],
    portfolioHoldings := [("portfolio-1", [posBTC])],
    rotations := [("rotate-1", rotC3)],
    sells := [], buys := [], priceTargets := [],
    nodeXY := [("portfolio-1", 100, 150)], rotationCount := 1, sellCount := 0,
    buyCount := 0, priceTargetCount := 0, portfolioCount := 1 }

/-- Chain `[PriceTarget(X, 200), Rotate]`: the price target sits before the
rotate node. -/
def edgesPTfirst : List Edge :=
  [⟨"portfolio-1", "priceTarget-1"⟩, ⟨"priceTarget-1", "rotate-1"⟩,
   ⟨"rotate-1", "projected-1"⟩]

/-- Chain `[Rotate, PriceTarget(X, 200)]`: the price target sits after the
rotate node. -/
def edgesPTlast : List Edge :=
  [⟨"portfolio-1", "rotate-1"⟩, ⟨"rotate-1", "priceTarget-1"⟩,
   ⟨"priceTarget-1", "projected-1"⟩]

/-- The stored price target `X -> 200` of both scoping scenarios. -/
def ptsX200 : List (String × PriceTargetRec) :=
  [("priceTarget-1", { asset := "X", targetPrice := 200 })]

/-- A fan-out graph: the rotate node has two outgoing action edges. -/
def edgesFanOut : List Edge :=
  [⟨"portfolio-1", "rotate-1"⟩, ⟨"rotate-1", "sell-1"⟩, ⟨"rotate-1", "buy-1"⟩]

/-- A cyclic graph: `rotate-1 -> rotate-2 -> rotate-1`. -/
def edgesCycle : List Edge :=
  [⟨"portfolio-1", "rotate-1"⟩, ⟨"rotate-1", "rotate-2"⟩,
   ⟨"rotate-2", "rotate-1"⟩]

/-- A rotation whose source ticker is not held (XRP is not in the ledger). -/
def rotXRP : Rotation :=
  { fromAsset := "XRP", sellAmount := 5, sellValue := 0,
    toAsset := "ETH", toPrice := 2500, toType := "crypto", buyAmount := 10 }

/-- State `stC3` with the rotation replaced by the missing-source rotation. -/
def stXRP : AppState :=
  { stC3 with rotations := [("rotate-1", rotXRP)] }

/-- State `stC3` with different drag positions and id counters: the fields the
engine never reads. -/
def stMoved : AppState :=
  { stC3 with nodeXY := [("portfolio-1", 500, 300), ("rotate-1", 640, 120)],
              rotationCount := 7, sellCount := 3, buyCount := 5,
              priceTargetCount := 2, portfolioCount := 42 }

/-! ### Lemmas -/

/-- Adding a freshly visited element of `l` to `visited` strictly shrinks the
unvisited part of `l`; this is the measure argument behind the cycle guards
of the two graph walks in page.js. -/
theorem filter_visited_cons_length_lt (l visited : List String) (x : String)
    (hx : x ∈ l) (hnv : x ∉ visited) :
    (l.filter (fun t => t ∉ (x :: visited))).length <
    (l.filter (fun t => t ∉ visited)).length := by
  have hsub : List.Sublist (l.filter (fun t => t ∉ (x :: visited)))
      (l.filter (fun t => t ∉ visited)) := by
    refine List.monotone_filter_right l ?_
    intro t ht
    simp only [decide_eq_true_eq, List.mem_cons, not_or] at ht ⊢
    exact ht.2
  have hxq : x ∈ l.filter (fun t => t ∉ visited) :=
    List.mem_filter.mpr ⟨hx, by simpa using hnv⟩
  have hxp : x ∉ l.filter (fun t => t ∉ (x :: visited)) := by
    intro hmem
    have h2 := (List.mem_filter.mp hmem).2
    simp at h2
  rcases Nat.lt_or_ge (l.filter (fun t => t ∉ (x :: visited))).length
      (l.filter (fun t => t ∉ visited)).length with h | h
  · exact h
  · exfalso
    have heq : l.filter (fun t => t ∉ (x :: visited)) =
        l.filter (fun t => t ∉ visited) :=
      hsub.eq_of_length (le_antisymm hsub.length_le h)
    rw [heq] at hxp
    exact hxp hxq

/-- The target of a found next edge is an unvisited action target, so the
unvisited count strictly drops when the walk advances. -/
theorem unvisitedCount_step_lt {edges : List Edge} {currentId : String}
    {visited : List String} {nextEdge : Edge}
    (hfind : edges.find? (fun e => e.source == currentId && isActionNode e.target) =
      some nextEdge)
    (hv : nextEdge.target ∉ visited) :
    unvisitedCount edges (nextEdge.target :: visited) < unvisitedCount edges visited := by
  have hmem : nextEdge ∈ edges := List.mem_of_find?_eq_some hfind
  have hprop := List.find?_some hfind
  have haction : isActionNode nextEdge.target = true := by
    simp only [Bool.and_eq_true] at hprop
    exact hprop.2
  have htgt : nextEdge.target ∈ actionTargets edges := by
    refine List.mem_map.mpr ⟨nextEdge, ?_, rfl⟩
    exact List.mem_filter.mpr ⟨hmem, haction⟩
  exact filter_visited_cons_length_lt _ _ _ htgt hv

/-- Any fuel above the unvisited count computes the same chain walk. -/
theorem chainWalkF_fuel_irrelevant (edges : List Edge) :
    ∀ (fuelA fuelB : Nat) (currentId : String) (visited : List String),
      unvisitedCount edges visited < fuelA →
      unvisitedCount edges visited < fuelB →
      chainWalkF edges fuelA currentId visited =
        chainWalkF edges fuelB currentId visited := by
  intro fuelA
  induction fuelA with
  | zero => intro fuelB currentId visited hA; omega
  | succ fuelA ih =>
    intro fuelB currentId visited hA hB
    cases fuelB with
    | zero => omega
    | succ fuelB =>
      show chainWalkF edges (fuelA + 1) currentId visited =
        chainWalkF edges (fuelB + 1) currentId visited
      unfold chainWalkF
      cases hfind : edges.find?
          (fun e => e.source == currentId && isActionNode e.target) with
      | none => rfl
      | some nextEdge =>
        by_cases hv : nextEdge.target ∈ visited
        · simp [hv]
        · have hlt := unvisitedCount_step_lt hfind hv
          simp only [hv, if_false, if_neg hv]
          have := ih fuelB nextEdge.target (nextEdge.target :: visited)
            (by omega) (by omega)
          rw [this]

/-- The walk advances through the first matching unvisited edge. -/
theorem chainWalk_step {edges : List Edge} {currentId : String}
    {visited : List String} {nextEdge : Edge}
    (hfind : edges.find? (fun e => e.source == currentId && isActionNode e.target) =
      some nextEdge)
    (hv : nextEdge.target ∉ visited) :
    chainWalk edges currentId visited =
      nextEdge.target :: chainWalk edges nextEdge.target (nextEdge.target :: visited) := by
  unfold chainWalk
  conv_lhs => rw [chainWalkF]
  rw [hfind]
  dsimp only
  rw [if_neg hv]
  have hlt := unvisitedCount_step_lt hfind hv
  rw [chainWalkF_fuel_irrelevant edges (unvisitedCount edges visited)
    (unvisitedCount edges (nextEdge.target :: visited) + 1) nextEdge.target
    (nextEdge.target :: visited) (by omega) (by omega)]

/-- Reading one `addOverride` step at a ticker. -/
theorem addOverride_apply (priceTargets : List (String × PriceTargetRec))
    (m : String → Option ℚ) (nodeId t : String) :
    addOverride priceTargets m nodeId t =
      match ptOverrideAt priceTargets t nodeId with
      | some v => some v
      | none => m t := by
  unfold addOverride ptOverrideAt
  by_cases hpt : strStartsWith nodeId "priceTarget-" = true
  · simp only [hpt, if_true]
    cases hlook : priceTargets.lookup nodeId with
    | none => simp
    | some pt =>
      by_cases hv : validPT pt = true
      · by_cases ht : pt.asset = t
        · subst ht
          simp [hv]
        · have hts : ¬t = pt.asset := fun h => ht h.symm
          simp [hv, hts, ht]
      · simp [hv]
  · simp [hpt]

/-- Operation `debit` is the identity when no position carries the ticker. -/
theorem debit_of_not_mem (led : List Position) (t : String) (amt : ℚ)
    (hnone : ∀ p ∈ led, p.ticker ≠ t) : debit led t amt = led := by
  induction led with
  | nil => rfl
  | cons p rest ih =>
    have hp : (p.ticker == t) = false :=
      beq_eq_false_iff_ne.mpr (hnone p (by simp))
    simp only [debit, hp, Bool.false_eq_true, if_false, List.append_eq]
    rw [ih (fun q hq => hnone q (by simp [hq]))]

/-- Operation `debit` at the first position carrying the ticker: update in place, or
drop it when the new amount is at most epsilon. -/
theorem debit_first (led₁ : List Position) (h : Position) (led₂ : List Position)
    (t : String) (amt : ℚ)
    (hfirst : ∀ p ∈ led₁, p.ticker ≠ t) (ht : h.ticker = t) :
    (h.amount - amt ≤ eps → debit (led₁ ++ h :: led₂) t amt = led₁ ++ led₂) ∧
    (¬h.amount - amt ≤ eps → debit (led₁ ++ h :: led₂) t amt =
      led₁ ++ { h with amount := h.amount - amt,
                       value := (h.amount - amt) * h.priceOrZero } :: led₂) := by
  induction led₁ with
  | nil =>
    refine ⟨fun hc => ?_, fun hc => ?_⟩ <;>
      simp [debit, ht, hc]
  | cons p rest ih =>
    have hp : (p.ticker == t) = false :=
      beq_eq_false_iff_ne.mpr (hfirst p (by simp))
    have ih' := ih (fun q hq => hfirst q (by simp [hq]))
    refine ⟨fun hc => ?_, fun hc => ?_⟩ <;>
      simp only [List.cons_append, debit, hp, Bool.false_eq_true, if_false,
        List.append_eq]
    · rw [ih'.1 hc]
    · rw [ih'.2 hc]

/-- Operation `credit` appends a fresh position when no position carries the ticker. -/
theorem credit_of_not_mem (led : List Position) (t : String) (b pr : ℚ)
    (ty : String) (hnone : ∀ p ∈ led, p.ticker ≠ t) :
    credit led t b pr ty =
      led ++ [{ ticker := t, amount := b, price := some pr,
                assetType := ty, value := b * pr }] := by
  induction led with
  | nil => rfl
  | cons p rest ih =>
    have hp : (p.ticker == t) = false :=
      beq_eq_false_iff_ne.mpr (hnone p (by simp))
    simp only [credit, hp, Bool.false_eq_true, if_false, List.cons_append,
      List.append_eq]
    rw [ih (fun q hq => hnone q (by simp [hq]))]

/-- Operation `credit` at the first position carrying the ticker: the amount grows by
the credited amount and the value is recomputed at the stored price. -/
theorem credit_first (led₁ : List Position) (h : Position) (led₂ : List Position)
    (t : String) (b pr : ℚ) (ty : String)
    (hfirst : ∀ p ∈ led₁, p.ticker ≠ t) (ht : h.ticker = t) :
    credit (led₁ ++ h :: led₂) t b pr ty =
      led₁ ++ { h with amount := h.amount + b,
                       value := (h.amount + b) * h.priceOrZero } :: led₂ := by
  induction led₁ with
  | nil => simp [credit, ht]
  | cons p rest ih =>
    have hp : (p.ticker == t) = false :=
      beq_eq_false_iff_ne.mpr (hfirst p (by simp))
    simp only [List.cons_append, credit, hp, Bool.false_eq_true, if_false,
      List.append_eq]
    rw [ih (fun q hq => hfirst q (by simp [hq]))]

/-- An id that denotes a rotate node denotes neither a sell nor a buy node:
the three `if` blocks of the trade pass cannot overlap. -/
theorem strStartsWith_rotate_disjoint (s : String)
    (hr : strStartsWith s "rotate-" = true) :
    strStartsWith s "sell-" = false ∧ strStartsWith s "buy-" = false := by
  unfold strStartsWith at hr ⊢
  cases hd : s.data with
  | nil => rw [hd] at hr; simp at hr
  | cons c cs =>
    rw [hd] at hr
    have hc : c = 'r' := by
      have := hr
      simp only [show "rotate-".data = ['r', 'o', 't', 'a', 't', 'e', '-'] from rfl,
        List.isPrefixOf_cons₂, Bool.and_eq_true, beq_iff_eq] at this
      exact this.1.symm
    subst hc
    constructor <;>
      simp [show "sell-".data = ['s', 'e', 'l', 'l', '-'] from rfl,
        show "buy-".data = ['b', 'u', 'y', '-'] from rfl,
        List.isPrefixOf_cons₂]

/-- On a rotate node with a stored rotation, the trade pass is exactly the
debit-then-credit block. -/
theorem tradeStep_rotate (st : AppState) (acc : List Position × ℚ)
    (nodeId : String) (r : Rotation)
    (hr : strStartsWith nodeId "rotate-" = true)
    (hlook : st.rotations.lookup nodeId = some r) :
    tradeStep st acc nodeId =
      (credit (debit acc.1 r.fromAsset r.sellAmount) r.toAsset r.buyAmount
        r.toPrice r.toType, acc.2) := by
  obtain ⟨hs, hb⟩ := strStartsWith_rotate_disjoint nodeId hr
  simp [tradeStep, hr, hs, hb, hlook]

/-- Folding `addOverride` over a node list reads back as "last valid price
target wins". -/
theorem foldl_addOverride_apply (priceTargets : List (String × PriceTargetRec))
    (nodes : List String) (m : String → Option ℚ) (t : String) :
    nodes.foldl (addOverride priceTargets) m t =
      match nodes.reverse.find?
          (fun n => (ptOverrideAt priceTargets t n).isSome) with
      | some n => ptOverrideAt priceTargets t n
      | none => m t := by
  induction nodes generalizing m with
  | nil => simp
  | cons a nodes ih =>
    rw [List.foldl_cons, ih]
    rw [List.reverse_cons, List.find?_append]
    cases hfind : nodes.reverse.find?
        (fun n => (ptOverrideAt priceTargets t n).isSome) with
    | some n => simp [Option.or]
    | none =>
      simp only [Option.none_or]
      rw [addOverride_apply]
      cases hat : ptOverrideAt priceTargets t a with
      | some v => simp [List.find?_singleton, hat]
      | none => simp [List.find?_singleton, hat]

/-! ### Claim theorems -/

/-- C2 (corrected): `debit` is a no-op when no position carries the ticker
(never an error); otherwise it subtracts the amount from the first matching
position, recomputes its value, and removes that position if and only if the
resulting *signed* amount is `<= 1e-6`.  In particular a strictly negative
resulting amount is removed as well — the claim's absolute-value removal rule
is refuted by `debit_negative_overshoot_removed`. -/
theorem debit_postcondition :
    (∀ (led : List Position) (t : String) (amt : ℚ),
      (∀ p ∈ led, p.ticker ≠ t) → debit led t amt = led) ∧
    (∀ (led₁ : List Position) (h : Position) (led₂ : List Position)
        (t : String) (amt : ℚ),
      (∀ p ∈ led₁, p.ticker ≠ t) → h.ticker = t →
      (h.amount - amt ≤ eps → debit (led₁ ++ h :: led₂) t amt = led₁ ++ led₂) ∧
      (eps < h.amount - amt → debit (led₁ ++ h :: led₂) t amt =
        led₁ ++ { h with amount := h.amount - amt,
                         value := (h.amount - amt) * h.priceOrZero } :: led₂)) := by
  refine ⟨debit_of_not_mem, fun led₁ h led₂ t amt h1 h2 => ?_⟩
  have hd := debit_first led₁ h led₂ t amt h1 h2
  exact ⟨hd.1, fun hlt => hd.2 (not_le.mpr hlt)⟩

/-- C2 counterexample: selling 2 BTC out of 1 leaves a resulting amount of
`-1`, whose absolute value is far above epsilon, yet the position is deleted
from the ledger — refuting "removed if and only if `|amount| <= 1e-6`". -/
theorem debit_negative_overshoot_removed :
    debit [posBTC] "BTC" 2 = [] ∧ ¬|(1 : ℚ) - 2| ≤ eps := by
  constructor
  · norm_num [debit, posBTC, eps]
  · norm_num [eps]

/-- C2 witness: the three branches of `debit_postcondition` at concrete
inputs — unknown ticker, partial sell, full sell. -/
theorem debit_postcondition_witness :
    debit [posBTC] "ETH" 1 = [posBTC] ∧
    debit [posBTC] "BTC" (1 / 4) =
      [{ ticker := "BTC", amount := 3 / 4, price := some 50000,
         assetType := "crypto", value := 37500 }] ∧
    debit [posBTC] "BTC" 1 = [] := by
  refine ⟨?_, ?_, ?_⟩
  · exact debit_postcondition.1 [posBTC] "ETH" 1 (by decide)
  · have h := (debit_postcondition.2 [] posBTC [] "BTC" (1 / 4)
      (by simp) rfl).2 (by norm_num [posBTC, eps])
    norm_num [posBTC, Position.priceOrZero] at h ⊢
    exact h
  · have h := (debit_postcondition.2 [] posBTC [] "BTC" 1
      (by simp) rfl).1 (by norm_num [posBTC, eps])
    simpa using h

/-- C10: a rotate whose source ticker is absent from the ledger still
performs its credit: on a rotate node the trade pass is the
debit-then-credit block, the debit is the identity, every existing position
is unchanged, and the destination ticker gains the full `buyAmount` (a fresh
position when absent, an in-place increase at its first position when
present) — holdings are created with nothing debited. -/
theorem rotate_missing_source_still_credits :
    (∀ (st : AppState) (acc : List Position × ℚ) (nodeId : String) (r : Rotation),
      strStartsWith nodeId "rotate-" = true →
      st.rotations.lookup nodeId = some r →
      tradeStep st acc nodeId =
        (credit (debit acc.1 r.fromAsset r.sellAmount) r.toAsset r.buyAmount
          r.toPrice r.toType, acc.2)) ∧
    (∀ (led : List Position) (r : Rotation),
      (∀ p ∈ led, p.ticker ≠ r.fromAsset) →
      debit led r.fromAsset r.sellAmount = led ∧
      ((∀ p ∈ led, p.ticker ≠ r.toAsset) →
        credit (debit led r.fromAsset r.sellAmount) r.toAsset r.buyAmount
            r.toPrice r.toType =
          led ++ [{ ticker := r.toAsset, amount := r.buyAmount,
                    price := some r.toPrice, assetType := r.toType,
                    value := r.buyAmount * r.toPrice }]) ∧
      (∀ (led₁ : List Position) (h : Position) (led₂ : List Position),
        led = led₁ ++ h :: led₂ → (∀ p ∈ led₁, p.ticker ≠ r.toAsset) →
        h.ticker = r.toAsset →
        credit (debit led r.fromAsset r.sellAmount) r.toAsset r.buyAmount
            r.toPrice r.toType =
          led₁ ++ { h with amount := h.amount + r.buyAmount,
                           value := (h.amount + r.buyAmount) * h.priceOrZero }
            :: led₂)) := by
  refine ⟨fun st acc nodeId r hr hl => tradeStep_rotate st acc nodeId r hr hl,
    fun led r hfrom => ?_⟩
  have hdeb : debit led r.fromAsset r.sellAmount = led :=
    debit_of_not_mem _ _ _ hfrom
  refine ⟨hdeb, fun hto => ?_, fun led₁ h led₂ heq h1 h2 => ?_⟩
  · rw [hdeb]
    exact credit_of_not_mem _ _ _ _ _ hto
  · subst heq
    rw [debit_of_not_mem _ _ _ hfrom]
    exact credit_first led₁ h led₂ _ _ _ _ h1 h2

/-- C10 witness: rotating out of XRP (not held) over the one-BTC ledger
leaves BTC untouched and creates the full 10-ETH position. -/
theorem rotate_missing_source_still_credits_witness :
    tradeStep stXRP ([posBTC], 0) "rotate-1" =
      (credit (debit [posBTC] "XRP" 5) "ETH" 10 2500 "crypto", 0) ∧
    credit (debit [posBTC] "XRP" 5) "ETH" 10 2500 "crypto" =
      [posBTC,
       { ticker := "ETH", amount := 10, price := some 2500,
         assetType := "crypto", value := 25000 }] := by
  constructor
  · exact rotate_missing_source_still_credits.1 stXRP ([posBTC], 0) "rotate-1"
      rotXRP (by decide) rfl
  · have h := (rotate_missing_source_still_credits.2 [posBTC] rotXRP
      (by decide)).2.1 (by decide)
    norm_num [rotXRP] at h ⊢
    exact h

/-- Chains of the simple-rotate state: the single chain `[rotate-1]`. -/
theorem stC3_chains : getOrderedChainNodes stC3.edges "portfolio-1" = [["rotate-1"]] := by
  decide

/-- Base holdings of the simple-rotate state. -/
theorem stC3_base : holdingsOf stC3 "portfolio-1" = [posBTC] := rfl

/-- No price target exists, so the override clone copies the base ledger. -/
theorem stC3_clone :
    overrideClone (terminalPriceOverrides stC3.edges stC3.priceTargets "portfolio-1")
      [posBTC] = [posBTC] := rfl

/-- The one trade step of the simple-rotate scenario: debit 0.5 BTC
(value 25000 at 50000), credit 10 ETH (value 25000 at 2500), no cash. -/
theorem stC3_trade : tradeStep stC3 ([posBTC], 0) "rotate-1" =
    ([{ ticker := "BTC", amount := 1 / 2, price := some 50000,
        assetType := "crypto", value := 25000 },
      { ticker := "ETH", amount := 10, price := some 2500,
        assetType := "crypto", value := 25000 }], 0) := by
  norm_num [tradeStep, stC3, rotC3, posBTC, strStartsWith, debit, credit,
    Position.priceOrZero, eps, List.isPrefixOf_cons₂]
  decide

/-- C3: projecting the one-BTC ledger through
Rotate(BTC, 0.5, ETH, 2500) yields exactly
`[{BTC, 0.5, 25000}, {ETH, 10, 25000}]` in that value-descending order; the
first conjunct records that the stored rotation record (including
`buyAmount = 10`) is the one the rotate component computes. -/
theorem simple_rotate_scenario :
    mkRotationRecord [posBTC] "BTC" (1 / 2) "ETH" "crypto" (some 2500) =
      some rotC3 ∧
    calculateProjectedHoldings stC3 "portfolio-1" =
      [{ ticker := "BTC", amount := 1 / 2, price := some 50000,
         assetType := "crypto", value := 25000 },
       { ticker := "ETH", amount := 10, price := some 2500,
         assetType := "crypto", value := 25000 }] := by
  constructor
  · have hg : ("BTC" : String) ≠ "" ∧ (0 : ℚ) < 1 / 2 ∧ ("ETH" : String) ≠ "" ∧
        (2500 : ℚ) ≠ 0 := ⟨by decide, by norm_num, by decide, by norm_num⟩
    simp only [mkRotationRecord, if_pos hg]
    norm_num [rotateSellValue, rotateBuyAmount, posBTC, rotC3,
      Position.priceOrZero]
  · rw [calculateProjectedHoldings]
    rw [stC3_chains, stC3_base, stC3_clone]
    simp only [List.flatten_cons, List.flatten_nil, List.append_nil,
      List.foldl_cons, List.foldl_nil, stC3_trade]
    norm_num [reconcileCash, sortByKeyDesc, insertByKeyDesc, eps]

/-- C6: rotate conservation — whenever the rotate component commits a record
over a ledger holding the source asset at a known price, the committed
amounts satisfy `sellAmount * fromPrice = buyAmount * toPrice` (exactly, in
ℚ): no value is created or destroyed by a rotation. -/
theorem rotate_conservation :
    ∀ (holdings : List Position) (fromAsset : String) (sellAmount : ℚ)
      (toAsset : String) (p : ℚ) (toType : String) (r : Rotation)
      (h : Position) (fp : ℚ),
      mkRotationRecord holdings fromAsset sellAmount toAsset toType (some p) =
        some r →
      holdings.find? (fun x => x.ticker == fromAsset) = some h →
      h.price = some fp →
      r.sellAmount * fp = r.buyAmount * r.toPrice := by
  intro holdings fa sa ta p ty r h fp hmk hfind hp
  simp only [mkRotationRecord] at hmk
  by_cases hg : fa ≠ "" ∧ 0 < sa ∧ ta ≠ "" ∧ p ≠ 0
  · rw [if_pos hg] at hmk
    obtain ⟨hfa, hsa, hta, hp0⟩ := hg
    have hrec := (Option.some.injEq _ _).mp hmk
    subst hrec
    have hsv : rotateSellValue holdings fa sa = sa * fp := by
      unfold rotateSellValue
      rw [hfind]
      show (if sa ≠ 0 then sa * h.priceOrZero else 0) = sa * fp
      rw [if_pos (ne_of_gt hsa)]
      simp [Position.priceOrZero, hp]
    show sa * fp =
      rotateBuyAmount (some p) (rotateSellValue holdings fa sa) * p
    rw [hsv]
    simp only [rotateBuyAmount]
    by_cases hz : sa * fp = 0
    · rw [if_neg (by simp [hz]), hz, zero_mul]
    · rw [if_pos ⟨hp0, hz⟩, div_mul_cancel₀ _ hp0]
  · rw [if_neg hg] at hmk
    cases hmk

/-- C6 witness: conservation at the simple-rotate record —
`0.5 * 50000 = 10 * 2500`. -/
theorem rotate_conservation_witness :
    rotC3.sellAmount * 50000 = rotC3.buyAmount * rotC3.toPrice := by
  refine rotate_conservation [posBTC] "BTC" (1 / 2) "ETH" 2500 "crypto" rotC3
    posBTC 50000 ?_ rfl rfl
  have hg : ("BTC" : String) ≠ "" ∧ (0 : ℚ) < 1 / 2 ∧ ("ETH" : String) ≠ "" ∧
      (2500 : ℚ) ≠ 0 := ⟨by decide, by norm_num, by decide, by norm_num⟩
  simp only [mkRotationRecord, if_pos hg]
  norm_num [rotateSellValue, rotateBuyAmount, posBTC, rotC3,
    Position.priceOrZero]

/-- C7 counterexample: on the fan-out graph (rotate-1 has two outgoing action
edges, to sell-1 and to buy-1) the resolver returns an ordinary chain that
silently follows the first edge and drops buy-1; its result type carries no
error or structural-inconsistency signal of any kind. -/
theorem fanout_silently_followed :
    getOrderedChainNodes edgesFanOut "portfolio-1" = [["rotate-1", "sell-1"]] := by
  decide

/-- C7 (corrected): at a fan-out the chain walk silently continues with the
target of the FIRST matching edge in edge-list order, even when a second,
distinct matching edge exists; no condition is raised. -/
theorem fanout_follows_first_edge :
    ∀ (edges : List Edge) (currentId : String) (visited : List String)
      (e1 e2 : Edge),
      edges.find? (fun e => e.source == currentId && isActionNode e.target) =
        some e1 →
      e2 ∈ edges → e2.source = currentId → isActionNode e2.target = true →
      e2 ≠ e1 → e1.target ∉ visited →
      chainWalk edges currentId visited =
        e1.target :: chainWalk edges e1.target (e1.target :: visited) := by
  intro edges cur vis e1 e2 hfind _ _ _ _ hnv
  exact chainWalk_step hfind hnv

/-- C7 witness: on the fan-out graph the walk at rotate-1 steps to sell-1
(the first of the two successors). -/
theorem fanout_follows_first_edge_witness :
    chainWalk edgesFanOut "rotate-1" ["rotate-1"] =
      "sell-1" :: chainWalk edgesFanOut "sell-1" ["sell-1", "rotate-1"] := by
  exact fanout_follows_first_edge edgesFanOut "rotate-1" ["rotate-1"]
    ⟨"rotate-1", "sell-1"⟩ ⟨"rotate-1", "buy-1"⟩ (by decide) (by decide) rfl
    (by decide) (by decide) (by decide)

/-- Unfolding one successful step of the chain walk. -/
theorem chainWalkF_succ (edges : List Edge) (fuel : Nat) (cur : String)
    (vis : List String) (e : Edge)
    (hfind : edges.find? (fun e => e.source == cur && isActionNode e.target) =
      some e) :
    chainWalkF edges (fuel + 1) cur vis =
      if e.target ∈ vis then []
      else e.target :: chainWalkF edges fuel e.target (e.target :: vis) := by
  conv_lhs => unfold chainWalkF
  rw [hfind]

/-- Unfolding one failing step of the chain walk. -/
theorem chainWalkF_succ_none (edges : List Edge) (fuel : Nat) (cur : String)
    (vis : List String)
    (hfind : edges.find? (fun e => e.source == cur && isActionNode e.target) =
      none) :
    chainWalkF edges (fuel + 1) cur vis = [] := by
  unfold chainWalkF
  rw [hfind]

/-- No element of a chain walk was already visited when the walk started. -/
theorem chainWalkF_not_mem_visited (edges : List Edge) :
    ∀ (fuel : Nat) (currentId : String) (visited : List String) (x : String),
      x ∈ chainWalkF edges fuel currentId visited → x ∉ visited := by
  intro fuel
  induction fuel with
  | zero => intro cur vis x hx; simp [chainWalkF] at hx
  | succ fuel ih =>
    intro cur vis x hx
    cases hfind : edges.find?
        (fun e => e.source == cur && isActionNode e.target) with
    | none => rw [chainWalkF_succ_none edges fuel cur vis hfind] at hx; simp at hx
    | some e =>
      rw [chainWalkF_succ edges fuel cur vis e hfind] at hx
      by_cases hv : e.target ∈ vis
      · rw [if_pos hv] at hx; simp at hx
      · rw [if_neg hv] at hx
        rcases List.mem_cons.mp hx with rfl | hx'
        · exact hv
        · have := ih e.target (e.target :: vis) x hx'
          exact fun hmem => this (List.mem_cons_of_mem _ hmem)

/-- Chain walks never repeat a node: the visited set is threaded through. -/
theorem chainWalkF_nodup (edges : List Edge) :
    ∀ (fuel : Nat) (currentId : String) (visited : List String),
      (chainWalkF edges fuel currentId visited).Nodup := by
  intro fuel
  induction fuel with
  | zero => intro cur vis; simp [chainWalkF]
  | succ fuel ih =>
    intro cur vis
    cases hfind : edges.find?
        (fun e => e.source == cur && isActionNode e.target) with
    | none => rw [chainWalkF_succ_none edges fuel cur vis hfind]; simp
    | some e =>
      rw [chainWalkF_succ edges fuel cur vis e hfind]
      by_cases hv : e.target ∈ vis
      · simp [hv]
      · rw [if_neg hv]
        refine List.nodup_cons.mpr ⟨fun hmem => ?_, ih e.target (e.target :: vis)⟩
        exact chainWalkF_not_mem_visited edges fuel e.target (e.target :: vis)
          e.target hmem (List.mem_cons_self _ _)

/-- C8: the chain derivation terminates on every finite graph because of the
cycle guard — every derived chain is free of repetitions — and on the cyclic
graph `rotate-1 -> rotate-2 -> rotate-1` it returns the finite chain
`[rotate-1, rotate-2]` instead of looping. -/
theorem chain_walk_cycle_guard :
    (∀ (edges : List Edge) (portfolioId : String) (chain : List String),
      chain ∈ getOrderedChainNodes edges portfolioId → chain.Nodup) ∧
    getOrderedChainNodes edgesCycle "portfolio-1" = [["rotate-1", "rotate-2"]] := by
  constructor
  · intro edges pid chain hmem
    unfold getOrderedChainNodes at hmem
    obtain ⟨startEdge, _, rfl⟩ := List.mem_map.mp hmem
    refine List.nodup_cons.mpr ⟨fun hmem' => ?_, ?_⟩
    · exact chainWalkF_not_mem_visited edges _ startEdge.target
        [startEdge.target] startEdge.target hmem' (by simp)
    · exact chainWalkF_nodup edges _ startEdge.target [startEdge.target]
  · decide

/-- C8 witness: the chain the cyclic graph produces is repetition-free. -/
theorem chain_walk_cycle_guard_witness :
    (["rotate-1", "rotate-2"] : List String).Nodup := by
  exact chain_walk_cycle_guard.1 edgesCycle "portfolio-1"
    ["rotate-1", "rotate-2"] (by decide)

/-- C1 (code bug): the per-node override map is exactly scoped as claimed —
for every ticker it reads back as the last valid price target in the part of
the node's own chain strictly before it, and it is empty when the node is
first-in-chain or not found.  The claimed consequent fails for the rotate
node, however: in the chain `[PriceTarget(X, 200), Rotate]` the map for the
rotate node does carry `X -> 200` (second conjunct), but the rotate
component's effective `toPrice` ignores the override map it is handed
(page.js 1414) and keeps the fetched price (third conjunct), whereas the buy
component's effective price, built from the identical map, would be 200
(fourth conjunct).  In `[Rotate, PriceTarget(X, 200)]` the map for the
rotate node is empty, so the rotate is unaffected (fifth conjunct). -/
theorem priceOverride_scoping :
    (∀ (edges : List Edge) (priceTargets : List (String × PriceTargetRec))
        (portfolioId stopBeforeNodeId t : String),
      getPriceOverridesUpTo edges priceTargets portfolioId stopBeforeNodeId t =
        match (getOrderedChainNodes edges portfolioId).find?
            (fun chain => chain.contains stopBeforeNodeId) with
        | none => none
        | some chain =>
          if chain.findIdx (fun n => n == stopBeforeNodeId) = 0 then none
          else lastPTOverride priceTargets
            (chain.take (chain.findIdx (fun n => n == stopBeforeNodeId))) t) ∧
    getPriceOverridesUpTo edgesPTfirst ptsX200 "portfolio-1" "rotate-1" "X" =
      some 200 ∧
    rotateEffectiveToPrice
      (getPriceOverridesUpTo edgesPTfirst ptsX200 "portfolio-1" "rotate-1")
      "X" (some 100) = some 100 ∧
    buyEffectiveToPrice
      (getPriceOverridesUpTo edgesPTfirst ptsX200 "portfolio-1" "rotate-1")
      "X" (some 100) = some 200 ∧
    getPriceOverridesUpTo edgesPTlast ptsX200 "portfolio-1" "rotate-1" "X" =
      none := by
  have hchar : ∀ (edges : List Edge)
      (priceTargets : List (String × PriceTargetRec))
      (portfolioId stopBeforeNodeId t : String),
      getPriceOverridesUpTo edges priceTargets portfolioId stopBeforeNodeId t =
        match (getOrderedChainNodes edges portfolioId).find?
            (fun chain => chain.contains stopBeforeNodeId) with
        | none => none
        | some chain =>
          if chain.findIdx (fun n => n == stopBeforeNodeId) = 0 then none
          else lastPTOverride priceTargets
            (chain.take (chain.findIdx (fun n => n == stopBeforeNodeId))) t := by
    intro edges priceTargets pid stop t
    unfold getPriceOverridesUpTo
    cases hfind : (getOrderedChainNodes edges pid).find?
        (fun chain => chain.contains stop) with
    | none => simp only [hfind]
    | some chain =>
      simp only [hfind]
      by_cases hidx : chain.findIdx (fun n => n == stop) = 0
      · simp only [hidx, if_true]
      · simp only [if_neg hidx]
        rw [foldl_addOverride_apply]
        unfold lastPTOverride
        cases hfind2 : (chain.take
            (chain.findIdx (fun n => n == stop))).reverse.find?
            (fun n => (ptOverrideAt priceTargets t n).isSome) with
        | none => simp only [hfind2]
        | some n => simp only [hfind2]
  have hfirst : getPriceOverridesUpTo edgesPTfirst ptsX200 "portfolio-1"
      "rotate-1" "X" = some 200 := by decide
  have hlast : getPriceOverridesUpTo edgesPTlast ptsX200 "portfolio-1"
      "rotate-1" "X" = none := by decide
  exact ⟨hchar, hfirst, by rw [rotateEffectiveToPrice],
    by rw [buyEffectiveToPrice, hfirst], hlast⟩

/-- C4: the terminal projection's override map is unscoped — for every
ticker it reads back as the last valid price target across the concatenation
of all the portfolio's chains, wherever each target sits in its chain; the
projection applies that map to every position of the base-ledger clone and
only then folds the rotate/sell/buy actions (the definitional decomposition
in the second conjunct).  Concretely, a price target placed after the rotate
still overrides terminally, while the per-node resolver is empty there. -/
theorem terminal_overrides_unscoped :
    (∀ (edges : List Edge) (priceTargets : List (String × PriceTargetRec))
        (portfolioId t : String),
      terminalPriceOverrides edges priceTargets portfolioId t =
        lastPTOverride priceTargets
          ((getOrderedChainNodes edges portfolioId).flatten) t) ∧
    (∀ (st : AppState) (portfolioId : String),
      calculateProjectedHoldings st portfolioId =
        sortByKeyDesc (fun h => h.value)
          (reconcileCash
            ((((getOrderedChainNodes st.edges portfolioId).flatten).foldl
                (tradeStep st)
                (overrideClone
                  (terminalPriceOverrides st.edges st.priceTargets portfolioId)
                  (holdingsOf st portfolioId), 0)).1)
            ((((getOrderedChainNodes st.edges portfolioId).flatten).foldl
                (tradeStep st)
                (overrideClone
                  (terminalPriceOverrides st.edges st.priceTargets portfolioId)
                  (holdingsOf st portfolioId), 0)).2))) ∧
    terminalPriceOverrides edgesPTlast ptsX200 "portfolio-1" "X" = some 200 ∧
    getPriceOverridesUpTo edgesPTlast ptsX200 "portfolio-1" "rotate-1" "X" =
      none := by
  refine ⟨?_, fun st pid => rfl, ?_, ?_⟩
  · intro edges priceTargets pid t
    unfold terminalPriceOverrides
    rw [foldl_addOverride_apply]
    unfold lastPTOverride
    cases hfind : ((getOrderedChainNodes edges pid).flatten).reverse.find?
        (fun n => (ptOverrideAt priceTargets t n).isSome) with
    | none => simp only [hfind]
    | some n => simp only [hfind]
  · decide
  · decide

/-- C5: the projection is a pure function of the graph edges, the base
holdings and the per-node parameter maps: two app states that agree on those
six fields — whatever their drag positions and id counters — produce
identical projected ledgers, and in particular two calls on the same state
are identical. -/
theorem projection_deterministic :
    ∀ (s₁ s₂ : AppState) (portfolioId : String),
      s₁.edges = s₂.edges → s₁.portfolioHoldings = s₂.portfolioHoldings →
      s₁.rotations = s₂.rotations → s₁.sells = s₂.sells →
      s₁.buys = s₂.buys → s₁.priceTargets = s₂.priceTargets →
      calculateProjectedHoldings s₁ portfolioId =
        calculateProjectedHoldings s₂ portfolioId := by
  intro s₁ s₂ pid h1 h2 h3 h4 h5 h6
  obtain ⟨e₁, p₁, r₁, sl₁, b₁, pt₁, x₁, c₁, c₂, c₃, c₄, c₅⟩ := s₁
  obtain ⟨e₂, p₂, r₂, sl₂, b₂, pt₂, x₂, d₁, d₂, d₃, d₄, d₅⟩ := s₂
  dsimp only at h1 h2 h3 h4 h5 h6
  subst h1; subst h2; subst h3; subst h4; subst h5; subst h6
  rfl

/-- C5 witness: moving the nodes around and bumping every id counter leaves
the projected ledger identical. -/
theorem projection_deterministic_witness :
    calculateProjectedHoldings stC3 "portfolio-1" =
      calculateProjectedHoldings stMoved "portfolio-1" := by
  exact projection_deterministic stC3 stMoved "portfolio-1" rfl rfl rfl rfl
    rfl rfl

/-- Folding a step that preserves an invariant preserves it. -/
theorem foldl_preserve {α β : Type} (P : β → Prop) (f : β → α → β)
    (hf : ∀ b a, P b → P (f b a)) :
    ∀ (l : List α) (b : β), P b → P (l.foldl f b) := by
  intro l
  induction l with
  | nil => intro b hb; simpa using hb
  | cons x xs ih =>
    intro b hb
    rw [List.foldl_cons]
    exact ih _ (hf b x hb)

/-- The heap debit writes only at addresses of its array and keeps every
returned address. -/
theorem debitH_extends (n : Nat) (heap₀ heap : List Position) (t : String)
    (amt : ℚ) :
    ∀ addrs : List Nat, HeapExtends n heap₀ heap addrs →
      HeapExtends n heap₀ (debitH heap addrs t amt).1
        (debitH heap addrs t amt).2 := by
  intro addrs
  induction addrs with
  | nil =>
    intro h
    refine ⟨h.1, ?_, h.2.2⟩
    intro a ha
    simp [debitH] at ha
  | cons a rest ih =>
    intro h
    obtain ⟨hlen, haddr, hframe⟩ := h
    have ha : n ≤ a := haddr a (List.mem_cons_self _ _)
    have hrest : HeapExtends n heap₀ heap rest :=
      ⟨hlen, fun b hb => haddr b (List.mem_cons_of_mem _ hb), hframe⟩
    have hsetlen : n ≤ (heap.set a (debitUpd (heapAt heap a) amt)).length := by
      simpa using hlen
    have hsetframe : ∀ i, i < n →
        (heap.set a (debitUpd (heapAt heap a) amt))[i]? = heap₀[i]? := by
      intro i hi
      rw [List.getElem?_set_ne (by omega)]
      exact hframe i hi
    by_cases htk : ((heapAt heap a).ticker == t) = true
    · by_cases heps : (debitUpd (heapAt heap a) amt).amount ≤ eps
      · have hres : debitH heap (a :: rest) t amt =
            (heap.set a (debitUpd (heapAt heap a) amt), rest) := by
          conv_lhs => unfold debitH
          rw [if_pos htk, if_pos heps]
        rw [hres]
        exact ⟨hsetlen, hrest.2.1, hsetframe⟩
      · have hres : debitH heap (a :: rest) t amt =
            (heap.set a (debitUpd (heapAt heap a) amt), a :: rest) := by
          conv_lhs => unfold debitH
          rw [if_pos htk, if_neg heps]
        rw [hres]
        refine ⟨hsetlen, ?_, hsetframe⟩
        intro b hb
        rcases List.mem_cons.mp hb with rfl | hb'
        · exact ha
        · exact hrest.2.1 b hb'
    · have hres : debitH heap (a :: rest) t amt =
          ((debitH heap rest t amt).1, a :: (debitH heap rest t amt).2) := by
        conv_lhs => unfold debitH
        rw [if_neg htk]
      rw [hres]
      have hr := ih hrest
      refine ⟨hr.1, ?_, hr.2.2⟩
      intro b hb
      rcases List.mem_cons.mp hb with rfl | hb'
      · exact ha
      · exact hr.2.1 b hb'

/-- The heap credit writes only at addresses of its array or appends a fresh
cell; returned addresses stay at or beyond `n`. -/
theorem creditH_extends (n : Nat) (heap₀ heap : List Position) (t : String)
    (b pr : ℚ) (ty : String) :
    ∀ addrs : List Nat, HeapExtends n heap₀ heap addrs →
      HeapExtends n heap₀ (creditH heap addrs t b pr ty).1
        (creditH heap addrs t b pr ty).2 := by
  intro addrs
  induction addrs with
  | nil =>
    intro h
    obtain ⟨hlen, _, hframe⟩ := h
    refine ⟨?_, ?_, ?_⟩
    · have hlen1 : (creditH heap [] t b pr ty).1.length = heap.length + 1 := by
        unfold creditH
        simp
      omega
    · intro a ha
      unfold creditH at ha
      simp only [List.mem_singleton] at ha
      omega
    · intro i hi
      show (heap ++ _)[i]? = heap₀[i]?
      rw [List.getElem?_append_left (lt_of_lt_of_le hi hlen)]
      exact hframe i hi
  | cons a rest ih =>
    intro h
    obtain ⟨hlen, haddr, hframe⟩ := h
    have ha : n ≤ a := haddr a (List.mem_cons_self _ _)
    have hrest : HeapExtends n heap₀ heap rest :=
      ⟨hlen, fun c hc => haddr c (List.mem_cons_of_mem _ hc), hframe⟩
    by_cases htk : ((heapAt heap a).ticker == t) = true
    · have hres : creditH heap (a :: rest) t b pr ty =
          (heap.set a (creditUpd (heapAt heap a) b), a :: rest) := by
        conv_lhs => unfold creditH
        rw [if_pos htk]
      rw [hres]
      refine ⟨by simpa using hlen, ?_, ?_⟩
      · intro c hc
        rcases List.mem_cons.mp hc with rfl | hc'
        · exact ha
        · exact hrest.2.1 c hc'
      · intro i hi
        rw [List.getElem?_set_ne (by omega)]
        exact hframe i hi
    · have hres : creditH heap (a :: rest) t b pr ty =
          ((creditH heap rest t b pr ty).1,
           a :: (creditH heap rest t b pr ty).2) := by
        conv_lhs => unfold creditH
        rw [if_neg htk]
      rw [hres]
      have hr := ih hrest
      refine ⟨hr.1, ?_, hr.2.2⟩
      intro c hc
      rcases List.mem_cons.mp hc with rfl | hc'
      · exact ha
      · exact hr.2.1 c hc'

/-- The heap price-target write shares the debit/credit frame behavior. -/
theorem applyPriceTargetToLedgerH_extends (n : Nat) (heap₀ heap : List Position)
    (pt : PriceTargetRec) :
    ∀ addrs : List Nat, HeapExtends n heap₀ heap addrs →
      HeapExtends n heap₀ (applyPriceTargetToLedgerH heap addrs pt).1
        (applyPriceTargetToLedgerH heap addrs pt).2 := by
  intro addrs
  induction addrs with
  | nil =>
    intro h
    refine ⟨h.1, ?_, h.2.2⟩
    intro a ha
    simp [applyPriceTargetToLedgerH] at ha
  | cons a rest ih =>
    intro h
    obtain ⟨hlen, haddr, hframe⟩ := h
    have ha : n ≤ a := haddr a (List.mem_cons_self _ _)
    have hrest : HeapExtends n heap₀ heap rest :=
      ⟨hlen, fun c hc => haddr c (List.mem_cons_of_mem _ hc), hframe⟩
    by_cases htk : ((heapAt heap a).ticker == pt.asset) = true
    · have hres : applyPriceTargetToLedgerH heap (a :: rest) pt =
          (heap.set a (ptUpd (heapAt heap a) pt), a :: rest) := by
        conv_lhs => unfold applyPriceTargetToLedgerH
        rw [if_pos htk]
      rw [hres]
      refine ⟨by simpa using hlen, ?_, ?_⟩
      · intro c hc
        rcases List.mem_cons.mp hc with rfl | hc'
        · exact ha
        · exact hrest.2.1 c hc'
      · intro i hi
        rw [List.getElem?_set_ne (by omega)]
        exact hframe i hi
    · have hres : applyPriceTargetToLedgerH heap (a :: rest) pt =
          ((applyPriceTargetToLedgerH heap rest pt).1,
           a :: (applyPriceTargetToLedgerH heap rest pt).2) := by
        conv_lhs => unfold applyPriceTargetToLedgerH
        rw [if_neg htk]
      rw [hres]
      have hr := ih hrest
      refine ⟨hr.1, ?_, hr.2.2⟩
      intro c hc
      rcases List.mem_cons.mp hc with rfl | hc'
      · exact ha
      · exact hr.2.1 c hc'

/-- The heap cash reconciliation shares the same frame behavior. -/
theorem reconcileCashGoH_extends (n : Nat) (heap₀ heap : List Position)
    (c : ℚ) :
    ∀ addrs : List Nat, HeapExtends n heap₀ heap addrs →
      HeapExtends n heap₀ (reconcileCashGoH heap addrs c).1
        (reconcileCashGoH heap addrs c).2 := by
  intro addrs
  induction addrs with
  | nil =>
    intro h
    obtain ⟨hlen, _, hframe⟩ := h
    refine ⟨?_, ?_, ?_⟩
    · have hlen1 : (reconcileCashGoH heap [] c).1.length = heap.length + 1 := by
        unfold reconcileCashGoH
        simp
      omega
    · intro a ha
      unfold reconcileCashGoH at ha
      simp only [List.mem_singleton] at ha
      omega
    · intro i hi
      show (heap ++ _)[i]? = heap₀[i]?
      rw [List.getElem?_append_left (lt_of_lt_of_le hi hlen)]
      exact hframe i hi
  | cons a rest ih =>
    intro h
    obtain ⟨hlen, haddr, hframe⟩ := h
    have ha : n ≤ a := haddr a (List.mem_cons_self _ _)
    have hrest : HeapExtends n heap₀ heap rest :=
      ⟨hlen, fun b hb => haddr b (List.mem_cons_of_mem _ hb), hframe⟩
    have hsetlen : n ≤ (heap.set a (cashUpd (heapAt heap a) c)).length := by
      simpa using hlen
    have hsetframe : ∀ i, i < n →
        (heap.set a (cashUpd (heapAt heap a) c))[i]? = heap₀[i]? := by
      intro i hi
      rw [List.getElem?_set_ne (by omega)]
      exact hframe i hi
    by_cases htk : ((heapAt heap a).ticker == "USD") = true
    · by_cases heps : |(cashUpd (heapAt heap a) c).amount| ≤ eps
      · have hres : reconcileCashGoH heap (a :: rest) c =
            (heap.set a (cashUpd (heapAt heap a) c), rest) := by
          conv_lhs => unfold reconcileCashGoH
          rw [if_pos htk, if_pos heps]
        rw [hres]
        exact ⟨hsetlen, hrest.2.1, hsetframe⟩
      · have hres : reconcileCashGoH heap (a :: rest) c =
            (heap.set a (cashUpd (heapAt heap a) c), a :: rest) := by
          conv_lhs => unfold reconcileCashGoH
          rw [if_pos htk, if_neg heps]
        rw [hres]
        refine ⟨hsetlen, ?_, hsetframe⟩
        intro b hb
        rcases List.mem_cons.mp hb with rfl | hb'
        · exact ha
        · exact hrest.2.1 b hb'
    · have hres : reconcileCashGoH heap (a :: rest) c =
          ((reconcileCashGoH heap rest c).1,
           a :: (reconcileCashGoH heap rest c).2) := by
        conv_lhs => unfold reconcileCashGoH
        rw [if_neg htk]
      rw [hres]
      have hr := ih hrest
      refine ⟨hr.1, ?_, hr.2.2⟩
      intro b hb
      rcases List.mem_cons.mp hb with rfl | hb'
      · exact ha
      · exact hr.2.1 b hb'

/-- Guarded cash reconciliation preserves the frame. -/
theorem reconcileCashH_extends (n : Nat) (heap₀ heap : List Position)
    (addrs : List Nat) (c : ℚ) (h : HeapExtends n heap₀ heap addrs) :
    HeapExtends n heap₀ (reconcileCashH heap addrs c).1
      (reconcileCashH heap addrs c).2 := by
  unfold reconcileCashH
  by_cases hc : c = 0
  · rw [if_pos hc]; exact h
  · rw [if_neg hc]; exact reconcileCashGoH_extends n heap₀ heap c addrs h

/-- The clone pass only appends fresh cells; its addresses are all fresh. -/
theorem cloneH_extends (n : Nat) (heap₀ : List Position)
    (ov : String → Option ℚ) :
    ∀ (addrs : List Nat) (heap : List Position),
      n ≤ heap.length → (∀ i, i < n → heap[i]? = heap₀[i]?) →
      HeapExtends n heap₀ (cloneH heap ov addrs).1 (cloneH heap ov addrs).2 := by
  intro addrs
  induction addrs with
  | nil =>
    intro heap hlen hframe
    refine ⟨hlen, ?_, hframe⟩
    intro b hb
    simp [cloneH] at hb
  | cons a rest ih =>
    intro heap hlen hframe
    have hres : cloneH heap ov (a :: rest) =
        ((cloneH (heap ++ [clonePos ov (heapAt heap a)]) ov rest).1,
         heap.length ::
           (cloneH (heap ++ [clonePos ov (heapAt heap a)]) ov rest).2) := rfl
    rw [hres]
    have ih' := ih (heap ++ [clonePos ov (heapAt heap a)])
      (le_trans hlen (by simp))
      (fun i hi => by
        rw [List.getElem?_append_left (lt_of_lt_of_le hi hlen)]
        exact hframe i hi)
    refine ⟨ih'.1, ?_, ih'.2.2⟩
    intro b hb
    rcases List.mem_cons.mp hb with rfl | hb'
    · exact hlen
    · exact ih'.2.1 b hb'

/-- One price-target node preserves the frame. -/
theorem ptStepH_extends (n : Nat) (heap₀ : List Position)
    (pts : List (String × PriceTargetRec)) :
    ∀ (acc : List Position × List Nat) (nodeId : String),
      HeapExtends n heap₀ acc.1 acc.2 →
      HeapExtends n heap₀ (ptStepH pts acc nodeId).1
        (ptStepH pts acc nodeId).2 := by
  intro acc nodeId h
  unfold ptStepH
  by_cases h1 : strStartsWith nodeId "priceTarget-" = true
  · rw [if_pos h1]
    cases hl : pts.lookup nodeId with
    | none => simp only [hl]; exact h
    | some pt =>
      simp only [hl]
      by_cases hv : validPT pt = true
      · rw [if_pos hv]
        exact applyPriceTargetToLedgerH_extends n heap₀ acc.1 pt acc.2 h
      · rw [if_neg hv]; exact h
  · rw [if_neg h1]; exact h

/-- The rotate block preserves the frame. -/
theorem tradeRotH_extends (n : Nat) (heap₀ : List Position) (st : AppState) :
    ∀ (acc : List Position × List Nat × ℚ) (nodeId : String),
      HeapExtends n heap₀ acc.1 acc.2.1 →
      HeapExtends n heap₀ (tradeRotH st acc nodeId).1
        (tradeRotH st acc nodeId).2.1 := by
  intro acc nodeId h
  unfold tradeRotH
  by_cases h1 : strStartsWith nodeId "rotate-" = true
  · rw [if_pos h1]
    cases hl : st.rotations.lookup nodeId with
    | none => simp only [hl]; exact h
    | some r =>
      simp only [hl]
      have hd := debitH_extends n heap₀ acc.1 r.fromAsset r.sellAmount acc.2.1 h
      exact creditH_extends n heap₀
        (debitH acc.1 acc.2.1 r.fromAsset r.sellAmount).1 r.toAsset
        r.buyAmount r.toPrice r.toType
        (debitH acc.1 acc.2.1 r.fromAsset r.sellAmount).2 hd
  · rw [if_neg h1]; exact h

/-- The sell block preserves the frame. -/
theorem tradeSellH_extends (n : Nat) (heap₀ : List Position) (st : AppState) :
    ∀ (acc : List Position × List Nat × ℚ) (nodeId : String),
      HeapExtends n heap₀ acc.1 acc.2.1 →
      HeapExtends n heap₀ (tradeSellH st acc nodeId).1
        (tradeSellH st acc nodeId).2.1 := by
  intro acc nodeId h
  unfold tradeSellH
  by_cases h1 : strStartsWith nodeId "sell-" = true
  · rw [if_pos h1]
    cases hl : st.sells.lookup nodeId with
    | none => simp only [hl]; exact h
    | some s =>
      simp only [hl]
      exact debitH_extends n heap₀ acc.1 s.fromAsset s.sellAmount acc.2.1 h
  · rw [if_neg h1]; exact h

/-- The buy block preserves the frame. -/
theorem tradeBuyH_extends (n : Nat) (heap₀ : List Position) (st : AppState) :
    ∀ (acc : List Position × List Nat × ℚ) (nodeId : String),
      HeapExtends n heap₀ acc.1 acc.2.1 →
      HeapExtends n heap₀ (tradeBuyH st acc nodeId).1
        (tradeBuyH st acc nodeId).2.1 := by
  intro acc nodeId h
  unfold tradeBuyH
  by_cases h1 : strStartsWith nodeId "buy-" = true
  · rw [if_pos h1]
    cases hl : st.buys.lookup nodeId with
    | none => simp only [hl]; exact h
    | some b =>
      simp only [hl]
      exact creditH_extends n heap₀ acc.1 b.toAsset b.buyAmount b.toPrice
        b.toType acc.2.1 h
  · rw [if_neg h1]; exact h

/-- One trade node preserves the frame. -/
theorem tradeStepH_extends (n : Nat) (heap₀ : List Position) (st : AppState)
    (acc : List Position × List Nat × ℚ) (nodeId : String)
    (h : HeapExtends n heap₀ acc.1 acc.2.1) :
    HeapExtends n heap₀ (tradeStepH st acc nodeId).1
      (tradeStepH st acc nodeId).2.1 := by
  unfold tradeStepH
  exact tradeBuyH_extends n heap₀ st _ nodeId
    (tradeSellH_extends n heap₀ st _ nodeId
      (tradeRotH_extends n heap₀ st acc nodeId h))

/-- Insertion produces no new elements. -/
theorem mem_insertByKeyDesc {α : Type} (key : α → ℚ) (x y : α) :
    ∀ l : List α, y ∈ insertByKeyDesc key x l → y = x ∨ y ∈ l := by
  intro l
  induction l with
  | nil =>
    intro h
    simp [insertByKeyDesc] at h
    exact Or.inl h
  | cons z zs ih =>
    intro h
    unfold insertByKeyDesc at h
    by_cases hc : key z < key x
    · rw [if_pos hc] at h
      rcases List.mem_cons.mp h with rfl | h'
      · exact Or.inl rfl
      · exact Or.inr h'
    · rw [if_neg hc] at h
      rcases List.mem_cons.mp h with rfl | h'
      · exact Or.inr (List.mem_cons_self _ _)
      · rcases ih h' with h'' | h''
        · exact Or.inl h''
        · exact Or.inr (List.mem_cons_of_mem _ h'')

/-- Sorting produces no new elements. -/
theorem mem_sortByKeyDesc {α : Type} (key : α → ℚ) (l : List α) (y : α)
    (h : y ∈ sortByKeyDesc key l) : y ∈ l := by
  suffices h' : ∀ (l : List α) (acc : List α),
      y ∈ l.foldl (fun acc x => insertByKeyDesc key x acc) acc →
      y ∈ acc ∨ y ∈ l by
    rcases h' l [] h with h'' | h''
    · simp at h''
    · exact h''
  intro l'
  induction l' with
  | nil =>
    intro acc hy
    exact Or.inl (by simpa using hy)
  | cons x xs ih =>
    intro acc hy
    rw [List.foldl_cons] at hy
    rcases ih _ hy with h' | h'
    · rcases mem_insertByKeyDesc key x y acc h' with rfl | h''
      · exact Or.inr (List.mem_cons_self _ _)
      · exact Or.inl h''
    · exact Or.inr (List.mem_cons_of_mem _ h')

/-- C9: purity / frame condition.  At the object level, both the
per-node-snapshot computation and the terminal projection leave every
pre-existing heap cell — in particular every position object of the base
holdings — exactly as it was: all writes land on the fresh clones (addresses
at or beyond the original heap length), and the returned snapshot consists
exclusively of such fresh addresses, never of base objects. -/
theorem projection_frame_condition :
    ∀ (st : AppState) (heap : List Position) (baseAddrs : List Nat)
      (portfolioId stopBeforeNodeId : String) (i : Nat),
      i < heap.length →
      ((computeHoldingsUpToH st heap baseAddrs portfolioId
          stopBeforeNodeId).1[i]? = heap[i]? ∧
        ∀ a ∈ (computeHoldingsUpToH st heap baseAddrs portfolioId
          stopBeforeNodeId).2, heap.length ≤ a) ∧
      ((calculateProjectedHoldingsH st heap baseAddrs portfolioId).1[i]? =
          heap[i]? ∧
        ∀ a ∈ (calculateProjectedHoldingsH st heap baseAddrs portfolioId).2,
          heap.length ≤ a) := by
  intro st heap baseAddrs pid stop i hi
  have hclone : ∀ ov : String → Option ℚ,
      HeapExtends heap.length heap (cloneH heap ov baseAddrs).1
        (cloneH heap ov baseAddrs).2 :=
    fun ov => cloneH_extends heap.length heap ov baseAddrs heap (le_refl _)
      (fun _ _ => rfl)
  have hfold : ∀ (nodes : List String) (ov : String → Option ℚ),
      HeapExtends heap.length heap
        (nodes.foldl (tradeStepH st)
          ((cloneH heap ov baseAddrs).1, (cloneH heap ov baseAddrs).2, 0)).1
        (nodes.foldl (tradeStepH st)
          ((cloneH heap ov baseAddrs).1, (cloneH heap ov baseAddrs).2, 0)).2.1 := by
    intro nodes ov
    exact foldl_preserve
      (fun acc : List Position × List Nat × ℚ =>
        HeapExtends heap.length heap acc.1 acc.2.1)
      (tradeStepH st)
      (fun b nodeId hb => tradeStepH_extends heap.length heap st b nodeId hb)
      nodes ((cloneH heap ov baseAddrs).1, (cloneH heap ov baseAddrs).2, 0)
      (hclone ov)
  have hcompute : HeapExtends heap.length heap
      (computeHoldingsUpToH st heap baseAddrs pid stop).1
      (computeHoldingsUpToH st heap baseAddrs pid stop).2 := by
    unfold computeHoldingsUpToH
    cases hfind : (getOrderedChainNodes st.edges pid).find?
        (fun chain => chain.contains stop) with
    | none =>
      simp only [hfind]
      exact hclone _
    | some chain =>
      simp only [hfind]
      by_cases hidx : chain.findIdx (fun n => n == stop) = 0
      · rw [if_pos hidx]
        exact hclone _
      · rw [if_neg hidx]
        have hpt := foldl_preserve
          (fun acc : List Position × List Nat =>
            HeapExtends heap.length heap acc.1 acc.2)
          (ptStepH st.priceTargets)
          (fun b nodeId hb =>
            ptStepH_extends heap.length heap st.priceTargets b nodeId hb)
          (chain.take (chain.findIdx (fun n => n == stop)))
          (cloneH heap (fun _ => none) baseAddrs) (hclone _)
        have htr := foldl_preserve
          (fun acc : List Position × List Nat × ℚ =>
            HeapExtends heap.length heap acc.1 acc.2.1)
          (tradeStepH st)
          (fun b nodeId hb =>
            tradeStepH_extends heap.length heap st b nodeId hb)
          (chain.take (chain.findIdx (fun n => n == stop)))
          (((chain.take (chain.findIdx (fun n => n == stop))).foldl
              (ptStepH st.priceTargets)
              (cloneH heap (fun _ => none) baseAddrs)).1,
           ((chain.take (chain.findIdx (fun n => n == stop))).foldl
              (ptStepH st.priceTargets)
              (cloneH heap (fun _ => none) baseAddrs)).2, 0) hpt
        exact reconcileCashH_extends heap.length heap _ _ _ htr
  have hproject : HeapExtends heap.length heap
      (calculateProjectedHoldingsH st heap baseAddrs pid).1
      ((calculateProjectedHoldingsH st heap baseAddrs pid).2) := by
    have hrc := reconcileCashH_extends heap.length heap
      (((getOrderedChainNodes st.edges pid).flatten).foldl (tradeStepH st)
        ((cloneH heap (terminalPriceOverrides st.edges st.priceTargets pid)
            baseAddrs).1,
         (cloneH heap (terminalPriceOverrides st.edges st.priceTargets pid)
            baseAddrs).2, 0)).1
      (((getOrderedChainNodes st.edges pid).flatten).foldl (tradeStepH st)
        ((cloneH heap (terminalPriceOverrides st.edges st.priceTargets pid)
            baseAddrs).1,
         (cloneH heap (terminalPriceOverrides st.edges st.priceTargets pid)
            baseAddrs).2, 0)).2.1
      (((getOrderedChainNodes st.edges pid).flatten).foldl (tradeStepH st)
        ((cloneH heap (terminalPriceOverrides st.edges st.priceTargets pid)
            baseAddrs).1,
         (cloneH heap (terminalPriceOverrides st.edges st.priceTargets pid)
            baseAddrs).2, 0)).2.2
      (hfold ((getOrderedChainNodes st.edges pid).flatten)
        (terminalPriceOverrides st.edges st.priceTargets pid))
    refine ⟨hrc.1, ?_, hrc.2.2⟩
    intro a ha
    have ha' := mem_sortByKeyDesc _ _ a ha
    exact hrc.2.1 a ha'
  exact ⟨⟨hcompute.2.2 i hi, hcompute.2.1⟩, ⟨hproject.2.2 i hi, hproject.2.1⟩⟩

/-- C9 witness: the frame condition at the simple-rotate state with the
single base object at address 0. -/
theorem projection_frame_condition_witness :
    0 < ([posBTC] : List Position).length ∧
    (((computeHoldingsUpToH stC3 [posBTC] [0] "portfolio-1" "rotate-1").1[0]? =
        ([posBTC] : List Position)[0]? ∧
      ∀ a ∈ (computeHoldingsUpToH stC3 [posBTC] [0] "portfolio-1"
        "rotate-1").2, ([posBTC] : List Position).length ≤ a) ∧
     ((calculateProjectedHoldingsH stC3 [posBTC] [0] "portfolio-1").1[0]? =
        ([posBTC] : List Position)[0]? ∧
      ∀ a ∈ (calculateProjectedHoldingsH stC3 [posBTC] [0] "portfolio-1").2,
        ([posBTC] : List Position).length ≤ a)) :=
  ⟨by decide,
   projection_frame_condition stC3 [posBTC] [0] "portfolio-1" "rotate-1" 0
     (by decide)⟩

end Folioli
